import Mathlib

/-!
Shallow embedding of `src/usageDetection.py`: a batch pipeline that detects
active-usage intervals in a power-consumption signal.  Signal values are
modelled as rationals (`ℚ`), arrays as `List ℚ`, and Python exceptions as
`Except String`.  Each definition embeds the source function or script line
named in its doc comment; theorems about the spec's claims follow the
definitions.
-/

namespace UsageDetection

/-- Embedding of `scipy.signal.lfilter b a x` (src line 49) with zero initial
state: the direct-form difference equation
`a[0] * y[n] = Σ_k b[k]·x[n-k] − Σ_{k≥1} a[k]·y[n-k]`, where terms whose
signal/output index would be negative are zero.  (`scipy` rejects an empty
`a`; here the `getD`-default and total `ℚ` division make the definition total,
and no claim depends on that corner.) -/
def lfilter (b a x : List ℚ) : List ℚ :=
  (List.range x.length).foldl
    (fun ys n =>
      ys ++ [(((List.range b.length).map
                 (fun k => if k ≤ n then b.getD k 0 * x.getD (n - k) 0 else 0)).sum
              - ((List.range a.length).map
                 (fun k => if 1 ≤ k ∧ k ≤ n then a.getD k 0 * ys.getD (n - k) 0 else 0)).sum)
             / a.getD 0 0])
    []

/-- State-passing embedding of a call `smoothness(deriv_signal, t)`
(src lines 52-70).  The source rebinds `smooth_signal = deriv_signal` — an
alias, not a copy — and then assigns `smooth_signal[i] = 0` in place for every
index whose current value lies strictly inside the open band `(-t, t)`.
The first component is the post-call state of the caller's argument array and
the second component is the returned array; in the source they are the same
array object. -/
def smoothnessCall (deriv_signal : List ℚ) (smooth_threshold : ℚ) : List ℚ × List ℚ :=
  let final :=
    (List.range deriv_signal.length).foldl
      (fun s i =>
        if -smooth_threshold < s.getD i 0 ∧ s.getD i 0 < smooth_threshold
        then s.set i 0
        else s)
      deriv_signal
  (final, final)

/-- The array returned by `smoothness` (second component of `smoothnessCall`). -/
def smoothness (deriv_signal : List ℚ) (smooth_threshold : ℚ) : List ℚ :=
  (smoothnessCall deriv_signal smooth_threshold).2

/-- Embedding of `np.diff`: consecutive differences, length one less than the
input's. -/
def npDiff : List ℚ → List ℚ
  | [] => []
  | [_] => []
  | a :: b :: rest => (b - a) :: npDiff (b :: rest)

/-- Embedding of `np.diff(np.append(x, x[len(x)-1]))` (src lines 102 and 130):
the last value is duplicated before forward differencing, so the result keeps
the input's length.  The index access `x[len(x)-1]` is modelled with `getD`;
every claim that uses this stage assumes a nonempty input, matching the source,
where an empty signal would fail on that index access. -/
def derivative (x : List ℚ) : List ℚ :=
  npDiff (x ++ [x.getD (x.length - 1) 0])

/-- Embedding of src lines 111-112: `np.zeros(len(s))` followed by the
fancy-index assignment `potential_usage_period[np.nonzero(s)] = 1`, i.e. 1 at
every nonzero entry of `s` and 0 elsewhere. -/
def potential_usage_period (s : List ℚ) : List ℚ :=
  s.map (fun v => if v = 0 then 0 else 1)

/-- The matched-filter kernel `usage_pattern` (src line 118). -/
def usage_pattern : List ℚ := [0, 0, 0, 1, 1, 1, 0, 0, 0]

/-- Entry `n` of the full linear convolution of `a` with `v`:
`Σ_m a[m] · v[n-m]`; factors whose index is out of range contribute zero. -/
def fullConv (a v : List ℚ) (n : ℕ) : ℚ :=
  ((List.range (n + 1)).map (fun m => a.getD m 0 * v.getD (n - m) 0)).sum

/-- Embedding of `np.convolve(a, v, 'same')` (src line 121): the centred slice
of length `max |a| |v|` of the full convolution (whose length is
`|a| + |v| - 1`), starting at offset `(min |a| |v| - 1) / 2`.  (`np.convolve`
rejects empty inputs; all uses here have nonempty inputs.) -/
def npConvolveSame (a v : List ℚ) : List ℚ :=
  (((List.range (a.length + v.length - 1)).map (fullConv a v)).drop
      ((min a.length v.length - 1) / 2)).take (max a.length v.length)

/-- Embedding of `np.sign`, elementwise. -/
def npSign (x : List ℚ) : List ℚ :=
  x.map (fun v => if v < 0 then -1 else if v = 0 then 0 else 1)

/-- Embedding of src lines 121-124:
`usage_period = np.sign(np.convolve(usage_pattern, cand, 'same'))`. -/
def usage_period (cand : List ℚ) : List ℚ :=
  npSign (npConvolveSame usage_pattern cand)

/-- Embedding of the slice assignment `usage_time_indication[0:10] = 0`
(src line 133), generalised over the warm-up count `w`. -/
def warmupSuppress (l : List ℚ) (w : ℕ) : List ℚ :=
  l.enum.map (fun p => if p.1 < w then 0 else p.2)

/-- Embedding of src lines 130-133: the transition signal, the derivative of
the confirmed indicator with the first 10 entries zeroed. -/
def usage_time_indication (up : List ℚ) : List ℚ :=
  warmupSuppress (derivative up) 10

/-- Embedding of `np.nonzero` on a 1-D array (src line 139): the ascending
list of indices of nonzero entries. -/
def npNonzero (l : List ℚ) : List ℕ :=
  (l.enum.filter (fun p => p.2 ≠ 0)).map Prod.fst

/-- `start_stop_time_index` (src line 139), as a list of indices. -/
def start_stop_time_index (uti : List ℚ) : List ℕ :=
  npNonzero uti

/-- Embedding of the output loop (src lines 140-144):
`for index in np.arange(0, len(idx), 2)` reads `idx[index]` and
`idx[index + 1]`.  When the count is odd, the final iteration reads one entry
past the end of the array, which raises an uncaught `IndexError`; with an even
count the loop yields the consecutive (start, stop) pairs in order. -/
def pairEvents : List ℕ → Except String (List (ℕ × ℕ))
  | [] => Except.ok []
  | [_] => Except.error "IndexError"
  | a :: b :: rest =>
    match pairEvents rest with
    | Except.ok evs => Except.ok ((a, b) :: evs)
    | Except.error e => Except.error e

/-- Modelled from the documented validation behaviour of the external library
call `scipy.signal.butter(order, Wn, btype='low', analog=False)` (src line 30),
which decides the whole error behaviour of `butter_lowpass` (the repository
code itself validates nothing): a negative order raises
`ValueError: Filter order must be a nonnegative integer` (from `buttap`,
checked first), and a digital critical frequency outside `0 < Wn < 1` raises
`ValueError: Digital filter critical frequencies must be 0 < Wn < 1` (from
`iirfilter`); order `0` is accepted and yields the identity filter.  The
numeric coefficients for accepted parameters are irrational (bilinear
transform of the Butterworth poles) and are abstracted as the function
parameter `coeffs`; no claim depends on coefficient values. -/
def scipyButter (coeffs : ℤ → ℚ → List ℚ × List ℚ) (order : ℤ) (Wn : ℚ) :
    Except String (List ℚ × List ℚ) :=
  if order < 0 then
    Except.error "ValueError: Filter order must be a nonnegative integer"
  else if Wn ≤ 0 ∨ 1 ≤ Wn then
    Except.error "ValueError: Digital filter critical frequencies must be 0 < Wn < 1"
  else
    Except.ok (coeffs order Wn)

/-- Embedding of `butter_lowpass` (src lines 13-31): normalises the cutoff by
the Nyquist frequency `nyq = 0.5 * fs` and designs the filter. -/
def butter_lowpass (coeffs : ℤ → ℚ → List ℚ × List ℚ) (cutoff fs : ℚ) (order : ℤ) :
    Except String (List ℚ × List ℚ) :=
  scipyButter coeffs order (cutoff / (1/2 * fs))

/-- Embedding of `butter_lowpass_filter` (src lines 33-50): designs the filter
first, then applies `lfilter`; a design-time error propagates before the
application stage runs on any data. -/
def butter_lowpass_filter (coeffs : ℤ → ℚ → List ℚ × List ℚ) (signal : List ℚ)
    (cutoff fs : ℚ) (order : ℤ) : Except String (List ℚ) :=
  match butter_lowpass coeffs cutoff fs order with
  | Except.ok ba => Except.ok (lfilter ba.1 ba.2 signal)
  | Except.error e => Except.error e

/-- The detection pipeline of the script body (src lines 96-144) from the
filter-application stage onward, with the filter coefficients `b`, `a` passed
explicitly (the script fixes them once via `butter(5, 0.6)`; no claim depends
on their values): denoise, differentiate, smooth with threshold `1.5`,
binarise, match the usage pattern, extract and warm-up-suppress transitions,
and pair the nonzero transition indices. -/
def detectedEvents (b a power : List ℚ) : Except String (List (ℕ × ℕ)) :=
  pairEvents (start_stop_time_index (usage_time_indication (usage_period
    (potential_usage_period (smoothness (derivative (lfilter b a power)) (3/2))))))

/-- The elementwise band function computed by `smoothness`: zero strictly
inside the open band `(-t, t)`, unchanged outside. -/
def bandZero (t v : ℚ) : ℚ := if -t < v ∧ v < t then 0 else v

/-- A left fold whose step grows the accumulator by one element grows it by
the length of the iterated list. -/
theorem foldl_grow_length {α : Type} (f : List ℚ → α → List ℚ)
    (hf : ∀ ys n, (f ys n).length = ys.length + 1) :
    ∀ (l : List α) (init : List ℚ), (l.foldl f init).length = init.length + l.length := by
  intro l
  induction l with
  | nil => intro init; simp
  | cons x xs ih =>
    intro init
    rw [List.foldl_cons, ih (f init x), hf, List.length_cons]
    omega

/-- `lfilter` preserves the signal length for every coefficient pair. -/
theorem lfilter_length (b a x : List ℚ) : (lfilter b a x).length = x.length := by
  unfold lfilter
  rw [foldl_grow_length _ (fun ys n => by simp) _ []]
  simp

/-- The in-place band-zeroing loop of `smoothness` computes the elementwise
band function: invariant form, with the already-processed half `pre` mapped. -/
theorem smoothness_loop_eq_map (t : ℚ) :
    ∀ (suf pre : List ℚ),
      (List.range' pre.length suf.length).foldl
          (fun s i => if -t < s.getD i 0 ∧ s.getD i 0 < t then s.set i 0 else s)
          (pre.map (bandZero t) ++ suf)
        = (pre ++ suf).map (bandZero t) := by
  intro suf
  induction suf with
  | nil => intro pre; simp
  | cons v rest ih =>
    intro pre
    rw [List.length_cons, List.range'_succ, List.foldl_cons]
    have hlenpre : (pre.map (bandZero t)).length = pre.length := by simp
    have hread : (pre.map (bandZero t) ++ v :: rest).getD pre.length 0 = v := by
      rw [List.getD_append_right _ _ _ _ (by omega)]
      simp [hlenpre]
    rw [hread]
    have hassoc : ∀ w : ℚ, pre.map (bandZero t) ++ [w] ++ rest
        = pre.map (bandZero t) ++ w :: rest := by
      intro w; rw [List.append_assoc]; rfl
    by_cases hc : -t < v ∧ v < t
    · have hset : (pre.map (bandZero t) ++ v :: rest).set pre.length 0
          = (pre ++ [v]).map (bandZero t) ++ rest := by
        rw [List.set_append_right _ _ (by omega)]
        simp only [hlenpre, Nat.sub_self, List.set_cons_zero, List.map_append]
        rw [← hassoc]
        simp [bandZero, hc]
      rw [if_pos hc, hset]
      have := ih (pre ++ [v])
      simp only [List.length_append, List.length_cons, List.length_nil] at this
      rw [this, List.append_assoc]
      rfl
    · have hstate : pre.map (bandZero t) ++ v :: rest
          = (pre ++ [v]).map (bandZero t) ++ rest := by
        simp only [List.map_append]
        rw [← hassoc]
        simp [bandZero, hc]
      rw [if_neg hc, hstate]
      have := ih (pre ++ [v])
      simp only [List.length_append, List.length_cons, List.length_nil] at this
      rw [this, List.append_assoc]
      rfl

/-- The array returned by `smoothness` is the elementwise band function of its
argument. -/
theorem smoothness_eq_map (x : List ℚ) (t : ℚ) :
    smoothness x t = x.map (bandZero t) := by
  have h := smoothness_loop_eq_map t x []
  simpa [smoothness, smoothnessCall, List.range_eq_range'] using h

/-- `smoothnessCall` returns the same array in both components (the post-call
argument state and the returned value coincide). -/
theorem smoothnessCall_fst_eq_snd (x : List ℚ) (t : ℚ) :
    (smoothnessCall x t).1 = (smoothnessCall x t).2 := rfl

/-- `np.diff` shortens a list by one. -/
theorem npDiff_length : ∀ l : List ℚ, (npDiff l).length = l.length - 1 := by
  intro l
  induction l with
  | nil => rfl
  | cons a rest ih =>
    cases rest with
    | nil => rfl
    | cons b rest' =>
      simp only [npDiff, List.length_cons] at ih ⊢
      omega

/-- Entries of `np.diff` are consecutive differences. -/
theorem npDiff_getD : ∀ (l : List ℚ) (i : ℕ), i + 1 < l.length →
    (npDiff l).getD i 0 = l.getD (i + 1) 0 - l.getD i 0 := by
  intro l
  induction l with
  | nil => intro i h; simp at h
  | cons a rest ih =>
    intro i h
    cases rest with
    | nil => simp at h
    | cons b rest' =>
      cases i with
      | zero => rfl
      | succ j =>
        simp only [npDiff, List.getD_cons_succ]
        exact ih j (by simpa using Nat.lt_of_succ_lt_succ h)

/-- The derivative stage preserves length. -/
theorem derivative_length (x : List ℚ) : (derivative x).length = x.length := by
  simp [derivative, npDiff_length]

/-- Entries of the derivative stage before the last index are forward
differences of the input. -/
theorem derivative_getD_of_lt (x : List ℚ) (i : ℕ) (h : i + 1 < x.length) :
    (derivative x).getD i 0 = x.getD (i + 1) 0 - x.getD i 0 := by
  unfold derivative
  rw [npDiff_getD _ i (by simp; omega)]
  rw [List.getD_append _ _ _ _ (by omega), List.getD_append _ _ _ _ (by omega)]

/-- The last entry of the derivative stage is zero (the duplicated last value
differences away). -/
theorem derivative_getD_last (x : List ℚ) (h : 1 ≤ x.length) :
    (derivative x).getD (x.length - 1) 0 = 0 := by
  unfold derivative
  rw [npDiff_getD _ (x.length - 1) (by simp; omega)]
  rw [Nat.sub_add_cancel h]
  rw [List.getD_append_right _ _ _ _ (by omega),
    List.getD_append _ _ _ _ (by omega)]
  simp

/-- `getD` through `map`, inside bounds. -/
theorem getD_map_of_lt (f : ℚ → ℚ) (l : List ℚ) (i : ℕ) (h : i < l.length) :
    (l.map f).getD i 0 = f (l.getD i 0) := by
  rw [List.getD_eq_getElem _ _ (by simpa using h), List.getD_eq_getElem _ _ h,
    List.getElem_map]

/-- Every entry of the kernel `usage_pattern` (any index, `getD` default
included) is 0 or 1. -/
theorem usage_pattern_getD (m : ℕ) :
    usage_pattern.getD m 0 = 0 ∨ usage_pattern.getD m 0 = 1 := by
  rcases m with _|_|_|_|_|_|_|_|_|n
  all_goals simp [usage_pattern]

/-- `getD` of a list of nonnegative values is nonnegative. -/
theorem getD_nonneg (v : List ℚ) (hv : ∀ y ∈ v, 0 ≤ y) (j : ℕ) : 0 ≤ v.getD j 0 := by
  by_cases h : j < v.length
  · rw [List.getD_eq_getElem _ _ h]
    exact hv _ (List.getElem_mem h)
  · rw [List.getD_eq_default _ _ (by omega)]

/-- Each term of the convolution sum against the kernel is nonnegative when
the signal is nonnegative. -/
theorem conv_term_nonneg (v : List ℚ) (hv : ∀ y ∈ v, 0 ≤ y) (n : ℕ) :
    ∀ z ∈ (List.range (n + 1)).map
        (fun m => usage_pattern.getD m 0 * v.getD (n - m) 0), 0 ≤ z := by
  intro z hz
  simp only [List.mem_map, List.mem_range] at hz
  obtain ⟨m, _, rfl⟩ := hz
  have h1 : 0 ≤ usage_pattern.getD m 0 := by
    rcases usage_pattern_getD m with h | h
    · rw [h]
    · rw [h]; norm_num
  exact mul_nonneg h1 (getD_nonneg v hv _)

/-- The full convolution with the kernel is entrywise nonnegative on
nonnegative signals. -/
theorem fullConv_nonneg (v : List ℚ) (hv : ∀ y ∈ v, 0 ≤ y) (n : ℕ) :
    0 ≤ fullConv usage_pattern v n := by
  unfold fullConv
  exact List.sum_nonneg (conv_term_nonneg v hv n)

/-- The centre tap of the kernel is 1, so the full convolution at offset
`i + 4` dominates the signal entry at `i` on nonnegative signals. -/
theorem le_fullConv_center (v : List ℚ) (hv : ∀ y ∈ v, 0 ≤ y) (i : ℕ) :
    v.getD i 0 ≤ fullConv usage_pattern v (i + 4) := by
  unfold fullConv
  have hmem : usage_pattern.getD 4 0 * v.getD (i + 4 - 4) 0
      ∈ (List.range (i + 4 + 1)).map
          (fun m => usage_pattern.getD m 0 * v.getD (i + 4 - m) 0) :=
    List.mem_map.mpr ⟨4, List.mem_range.mpr (by omega), rfl⟩
  have hval : usage_pattern.getD 4 0 * v.getD (i + 4 - 4) 0 = v.getD i 0 := by
    norm_num [usage_pattern]
  rw [← hval]
  exact List.single_le_sum (conv_term_nonneg v hv (i + 4)) _ hmem

/-- Length of the 'same'-mode convolution with the 9-element kernel:
`max 9 N` for a signal of length `N ≥ 1`. -/
theorem convSame_kernel_length (v : List ℚ) (h : 1 ≤ v.length) :
    (npConvolveSame usage_pattern v).length = max 9 v.length := by
  have h9 : usage_pattern.length = 9 := rfl
  unfold npConvolveSame
  rw [List.length_take, List.length_drop, List.length_map, List.length_range, h9]
  omega

/-- For a signal at least as long as the kernel, entry `i` of the 'same'-mode
convolution is entry `i + 4` of the full convolution (centred slice). -/
theorem convSame_kernel_getD (v : List ℚ) (h9 : 9 ≤ v.length) (i : ℕ)
    (hi : i < v.length) :
    (npConvolveSame usage_pattern v).getD i 0 = fullConv usage_pattern v (i + 4) := by
  have hlen : (npConvolveSame usage_pattern v).length = v.length := by
    rw [convSame_kernel_length v (by omega)]; omega
  rw [List.getD_eq_getElem _ _ (by rw [hlen]; exact hi)]
  simp only [npConvolveSame, List.getElem_take, List.getElem_drop,
    List.getElem_map, List.getElem_range]
  have hup : usage_pattern.length = 9 := rfl
  congr 1
  rw [hup]
  omega

/-- Every member of the 'same'-mode convolution with the kernel is a value of
the full convolution, hence nonnegative on nonnegative signals. -/
theorem convSame_mem_nonneg (v : List ℚ) (hv : ∀ y ∈ v, 0 ≤ y) :
    ∀ c ∈ npConvolveSame usage_pattern v, 0 ≤ c := by
  intro c hc
  unfold npConvolveSame at hc
  have hc' := List.mem_of_mem_drop (List.mem_of_mem_take hc)
  simp only [List.mem_map, List.mem_range] at hc'
  obtain ⟨m, _, rfl⟩ := hc'
  exact fullConv_nonneg v hv m

/-- `getD` of the 'same'-mode convolution with the kernel is nonnegative on
nonnegative signals (in or out of range). -/
theorem convSame_getD_nonneg (v : List ℚ) (hv : ∀ y ∈ v, 0 ≤ y) (i : ℕ) :
    0 ≤ (npConvolveSame usage_pattern v).getD i 0 :=
  getD_nonneg _ (convSame_mem_nonneg v hv) i

/-- The index components of `enumFrom` are strictly increasing. -/
theorem enumFrom_pairwise_fst_lt (n : ℕ) (l : List ℚ) :
    (List.enumFrom n l).Pairwise (fun p q => p.1 < q.1) := by
  have h : (List.map Prod.fst (List.enumFrom n l)).Pairwise (· < ·) := by
    rw [List.enumFrom_map_fst]
    exact List.pairwise_lt_range' n l.length
  exact List.pairwise_map.mp h

/-- The indices returned by `np.nonzero` are strictly increasing. -/
theorem npNonzero_pairwise (l : List ℚ) : (npNonzero l).Pairwise (· < ·) := by
  unfold npNonzero
  rw [List.pairwise_map]
  exact (enumFrom_pairwise_fst_lt 0 l).filter _

/-- Filtering an enumeration on the value component keeps as many entries as
filtering the underlying list. -/
theorem enumFrom_filter_length (q : ℚ → Bool) (n : ℕ) (l : List ℚ) :
    ((List.enumFrom n l).filter (fun p => q p.2)).length = (l.filter q).length := by
  induction l generalizing n with
  | nil => rfl
  | cons x xs ih =>
    rw [List.enumFrom_cons, List.filter_cons, List.filter_cons]
    cases hq : q x
    · simpa using ih (n + 1)
    · simpa using ih (n + 1)

/-- The number of indices returned by `np.nonzero` is the number of nonzero
entries. -/
theorem npNonzero_length (l : List ℚ) :
    (npNonzero l).length = l.countP (fun v => v ≠ 0) := by
  unfold npNonzero List.enum
  rw [List.length_map, List.countP_eq_length_filter]
  exact enumFrom_filter_length (fun v => decide (v ≠ 0)) 0 l

/-- When consecutive pairing of a strictly increasing index list succeeds, the
events take their indices from the list, each start is below its stop,
consecutive events do not overlap, and starts strictly increase. -/
theorem pairEvents_ok_props :
    ∀ (l : List ℕ) (evs : List (ℕ × ℕ)), l.Pairwise (· < ·) →
      pairEvents l = Except.ok evs →
      (∀ e ∈ evs, e.1 ∈ l ∧ e.2 ∈ l) ∧
      (∀ e ∈ evs, e.1 < e.2) ∧
      List.Chain' (fun e f => e.2 < f.1) evs ∧
      evs.Pairwise (fun e f => e.1 < f.1) := by
  intro l
  induction l using pairEvents.induct with
  | case1 =>
    intro evs _ h
    cases h
    simp
  | case2 a =>
    intro evs _ h
    cases h
  | case3 a b rest x y ih =>
    intro evs hpw h
    simp only [pairEvents, y] at h
    cases h
    rw [List.pairwise_cons] at hpw
    obtain ⟨ha, hpw'⟩ := hpw
    rw [List.pairwise_cons] at hpw'
    obtain ⟨hb, hrest⟩ := hpw'
    obtain ⟨ihmem, ihlt, ihchain, ihpw⟩ := ih x hrest y
    refine ⟨?_, ?_, ?_, ?_⟩
    · intro e he
      rcases List.mem_cons.mp he with rfl | he'
      · exact ⟨List.mem_cons_self _ _, List.mem_cons_of_mem _ (List.mem_cons_self _ _)⟩
      · obtain ⟨h1, h2⟩ := ihmem e he'
        exact ⟨List.mem_cons_of_mem _ (List.mem_cons_of_mem _ h1),
          List.mem_cons_of_mem _ (List.mem_cons_of_mem _ h2)⟩
    · intro e he
      rcases List.mem_cons.mp he with rfl | he'
      · exact ha b (List.mem_cons_self _ _)
      · exact ihlt e he'
    · rw [List.chain'_cons']
      refine ⟨?_, ihchain⟩
      intro f hf
      cases x with
      | nil => simp at hf
      | cons hd tl =>
        simp only [List.head?_cons, Option.mem_def, Option.some.injEq] at hf
        subst hf
        exact hb _ (ihmem hd (List.mem_cons_self _ _)).1
    · rw [List.pairwise_cons]
      refine ⟨?_, ihpw⟩
      intro f hf
      exact ha _ (List.mem_cons_of_mem _ (ihmem f hf).1)
  | case4 a b rest x y _ =>
    intro evs _ h
    simp only [pairEvents, y] at h
    cases h

/-- C1: on a transition signal whose number of nonzero entries after warm-up
suppression is odd — here a single transition at index 42 — the source's
pairing loop reads one entry past the end of the nonzero-index array and the
run fails with an uncaught `IndexError`; no `UnpairedEventError` type exists
anywhere in the source, and the unmatched trailing transition index is not
reported to the caller. -/
theorem C1_odd_transitions_raise_index_error :
    start_stop_time_index (List.replicate 42 0 ++ [1]) = [42] ∧
    pairEvents (start_stop_time_index (List.replicate 42 0 ++ [1]))
      = Except.error "IndexError" :=
  ⟨by with_unfolding_all rfl, by with_unfolding_all rfl⟩

/-- C3: `smoothness` mutates its argument.  The source aliases
`smooth_signal = deriv_signal` (no copy) and assigns entries of the shared
array in place: after the call `smoothness(x, 1)` with `x = [1/2]`, the
caller's array `x` holds `[0]`, not its original value `[1/2]`, and the
returned array is that same mutated array rather than a new one. -/
theorem C3_smoothness_mutates_argument :
    (smoothnessCall [1/2] 1).1 = [0] ∧
    (smoothnessCall [1/2] 1).1 ≠ [1/2] ∧
    (smoothnessCall [1/2] 1).2 = (smoothnessCall [1/2] 1).1 := by
  have h1 : (smoothnessCall [1/2] 1).1 = [0] := by with_unfolding_all rfl
  refine ⟨h1, ?_, rfl⟩
  rw [h1]
  intro hcontra
  have : (0 : ℚ) = 1/2 := by injection hcontra
  norm_num at this

/-- C2 counterexample: for the valid input signal `[0, 0]` of length `N = 2`
(identity filter coefficients), the 'same'-mode convolution output — and with
it the sign-reduced confirmed indicator — has length `max 9 2 = 9`, not `N`:
`np.convolve(·,·,'same')` returns `max(M, N)` entries, not `N`. -/
theorem C2_counterexample :
    (lfilter [1] [1] [0, 0]).length = 2 ∧
    (usage_period (potential_usage_period
        (smoothness (derivative (lfilter [1] [1] [0, 0])) (3/2)))).length ≠ 2 := by
  have h9 : (usage_period (potential_usage_period
      (smoothness (derivative (lfilter [1] [1] [0, 0])) (3/2)))).length = 9 := by
    with_unfolding_all rfl
  refine ⟨by with_unfolding_all rfl, ?_⟩
  rw [h9]
  decide

/-- C2 (amended): for every coefficient pair and every input signal of length
`N ≥ 2`, the filtered signal, the trend signal, the smoothed trend, and the
candidate indicator have length exactly `N`, while the 'same'-mode convolution
output and the sign-reduced confirmed indicator have length `max 9 N` — equal
to `N` exactly when `N ≥ 9` (the kernel length). -/
theorem C2_length_preservation (b a x : List ℚ) (h : 2 ≤ x.length) :
    (lfilter b a x).length = x.length ∧
    (derivative (lfilter b a x)).length = x.length ∧
    (smoothness (derivative (lfilter b a x)) (3/2)).length = x.length ∧
    (potential_usage_period (smoothness (derivative (lfilter b a x)) (3/2))).length
      = x.length ∧
    (npConvolveSame usage_pattern (potential_usage_period
        (smoothness (derivative (lfilter b a x)) (3/2)))).length = max 9 x.length ∧
    (usage_period (potential_usage_period
        (smoothness (derivative (lfilter b a x)) (3/2)))).length = max 9 x.length ∧
    (9 ≤ x.length → (usage_period (potential_usage_period
        (smoothness (derivative (lfilter b a x)) (3/2)))).length = x.length) := by
  have h1 : (lfilter b a x).length = x.length := lfilter_length b a x
  have h2 : (derivative (lfilter b a x)).length = x.length := by
    rw [derivative_length, h1]
  have h3 : (smoothness (derivative (lfilter b a x)) (3/2)).length = x.length := by
    rw [smoothness_eq_map, List.length_map, h2]
  have h4 : (potential_usage_period
      (smoothness (derivative (lfilter b a x)) (3/2))).length = x.length := by
    unfold potential_usage_period
    rw [List.length_map, h3]
  have h5 : (npConvolveSame usage_pattern (potential_usage_period
      (smoothness (derivative (lfilter b a x)) (3/2)))).length = max 9 x.length := by
    rw [convSame_kernel_length _ (by omega), h4]
  have h6 : (usage_period (potential_usage_period
      (smoothness (derivative (lfilter b a x)) (3/2)))).length = max 9 x.length := by
    unfold usage_period npSign
    rw [List.length_map, h5]
  exact ⟨h1, h2, h3, h4, h5, h6, fun h9 => by rw [h6]; omega⟩

/-- Witness for C2 (amended): on the all-zero signal of length 9 with
identity coefficients, every stage (convolution included) has length
`9 = max 9 9`. -/
theorem C2_length_preservation_witness :
    2 ≤ (List.replicate 9 (0:ℚ)).length ∧
    ((lfilter [1] [1] (List.replicate 9 (0:ℚ))).length
        = (List.replicate 9 (0:ℚ)).length ∧
      (derivative (lfilter [1] [1] (List.replicate 9 (0:ℚ)))).length
        = (List.replicate 9 (0:ℚ)).length ∧
      (smoothness (derivative (lfilter [1] [1] (List.replicate 9 (0:ℚ)))) (3/2)).length
        = (List.replicate 9 (0:ℚ)).length ∧
      (potential_usage_period (smoothness
          (derivative (lfilter [1] [1] (List.replicate 9 (0:ℚ)))) (3/2))).length
        = (List.replicate 9 (0:ℚ)).length ∧
      (npConvolveSame usage_pattern (potential_usage_period (smoothness
          (derivative (lfilter [1] [1] (List.replicate 9 (0:ℚ)))) (3/2)))).length
        = max 9 (List.replicate 9 (0:ℚ)).length ∧
      (usage_period (potential_usage_period (smoothness
          (derivative (lfilter [1] [1] (List.replicate 9 (0:ℚ)))) (3/2)))).length
        = max 9 (List.replicate 9 (0:ℚ)).length ∧
      (9 ≤ (List.replicate 9 (0:ℚ)).length →
        (usage_period (potential_usage_period (smoothness
            (derivative (lfilter [1] [1] (List.replicate 9 (0:ℚ)))) (3/2)))).length
          = (List.replicate 9 (0:ℚ)).length)) :=
  ⟨by decide, C2_length_preservation [1] [1] (List.replicate 9 (0:ℚ)) (by decide)⟩

/-- C4 counterexample: with order `0` (so `order < 1`), cutoff 3 Hz and
sampling rate 10 Hz, the design stage succeeds: the underlying design routine
accepts order 0 (it rejects only negative orders), so `order < 1` alone raises
no error. -/
theorem C4_counterexample :
    (0 : ℤ) < 1 ∧
    butter_lowpass (fun _ _ => ([1], [1])) 3 10 0 = Except.ok ([1], [1]) :=
  ⟨by decide, by with_unfolding_all rfl⟩

/-- C4 (amended): a cutoff at or above the Nyquist frequency `0.5·fs` (with
`fs > 0`), or a negative order, makes the design stage fail, and
`butter_lowpass_filter` forwards exactly that design-time error for every
input signal — the `lfilter` application stage is never reached.  Order 0,
however, is accepted, so `order < 1` by itself does not raise. -/
theorem C4_design_time_errors (coeffs : ℤ → ℚ → List ℚ × List ℚ)
    (signal : List ℚ) (cutoff fs : ℚ) (order : ℤ)
    (h : (0 < fs ∧ 1/2 * fs ≤ cutoff) ∨ order < 0) :
    ∃ e, butter_lowpass coeffs cutoff fs order = Except.error e ∧
      butter_lowpass_filter coeffs signal cutoff fs order = Except.error e := by
  have hbl : ∃ e, butter_lowpass coeffs cutoff fs order = Except.error e := by
    unfold butter_lowpass scipyButter
    by_cases hord : order < 0
    · exact ⟨_, by rw [if_pos hord]⟩
    · rcases h with ⟨hfs, hcut⟩ | h'
      · have hnyq : 0 < 1/2 * fs := by positivity
        have hwn : 1 ≤ cutoff / (1/2 * fs) := (one_le_div hnyq).mpr hcut
        exact ⟨_, by rw [if_neg hord, if_pos (Or.inr hwn)]⟩
      · exact absurd h' hord
  obtain ⟨e, he⟩ := hbl
  refine ⟨e, he, ?_⟩
  unfold butter_lowpass_filter
  rw [he]

/-- Witness for C4: at cutoff 5 Hz and sampling rate 10 Hz (cutoff equals the
Nyquist frequency) with order 5, the design fails and the filter stage
forwards the design error for the signal `[1, 2]`. -/
theorem C4_design_time_errors_witness :
    (((0:ℚ) < 10 ∧ 1/2 * 10 ≤ (5:ℚ)) ∨ (5:ℤ) < 0) ∧
    ∃ e, butter_lowpass (fun _ _ => ([1], [1])) 5 10 5 = Except.error e ∧
      butter_lowpass_filter (fun _ _ => ([1], [1])) [1, 2] 5 10 5 = Except.error e :=
  ⟨Or.inl (by norm_num),
    C4_design_time_errors (fun _ _ => ([1], [1])) [1, 2] 5 10 5 (Or.inl (by norm_num))⟩

/-- C5: every pipeline run that completes without error returns exactly the
consecutive pairing of the nonzero transition indices (which are collected in
ascending order); consequently every event has start index < stop index, the
events are strictly ordered by start index, and consecutive events do not
overlap (each stop lies strictly before the next start). -/
theorem C5_successful_runs_ordered_events (b a power : List ℚ) (evs : List (ℕ × ℕ))
    (h : detectedEvents b a power = Except.ok evs) :
    detectedEvents b a power
      = pairEvents (start_stop_time_index (usage_time_indication (usage_period
          (potential_usage_period (smoothness (derivative (lfilter b a power)) (3/2)))))) ∧
    (∀ e ∈ evs, e.1 < e.2) ∧
    evs.Pairwise (fun e f => e.1 < f.1) ∧
    List.Chain' (fun e f => e.2 < f.1) evs := by
  have hpw := npNonzero_pairwise (usage_time_indication (usage_period
    (potential_usage_period (smoothness (derivative (lfilter b a power)) (3/2)))))
  have hp := pairEvents_ok_props
    (npNonzero (usage_time_indication (usage_period
      (potential_usage_period (smoothness (derivative (lfilter b a power)) (3/2))))))
    evs hpw h
  exact ⟨rfl, hp.2.1, hp.2.2.2, hp.2.2.1⟩

set_option maxRecDepth 100000 in
/-- Witness for C5: with identity coefficients and a step signal (13 zeros
then 4 samples at 10), the run succeeds with the single event (10, 13), which
satisfies all three ordering properties. -/
theorem C5_successful_runs_ordered_events_witness :
    detectedEvents [1] [1] (List.replicate 13 0 ++ List.replicate 4 10)
      = Except.ok [(10, 13)] ∧
    ((∀ e ∈ [((10:ℕ), (13:ℕ))], e.1 < e.2) ∧
      List.Pairwise (fun e f => e.1 < f.1) [((10:ℕ), (13:ℕ))] ∧
      List.Chain' (fun e f => e.2 < f.1) [((10:ℕ), (13:ℕ))]) :=
  have h : detectedEvents [1] [1] (List.replicate 13 0 ++ List.replicate 4 10)
      = Except.ok [(10, 13)] := by with_unfolding_all rfl
  ⟨h, (C5_successful_runs_ordered_events [1] [1]
      (List.replicate 13 0 ++ List.replicate 4 10) [(10, 13)] h).2⟩

/-- C6: `smoothness` is defined for every input and threshold, and its
returned array is computed elementwise: entry `i` is 0 when `|x[i]| < t`
(strict symmetric band around zero) and is `x[i]` unchanged — not rectified —
otherwise; in particular `t ≤ 0` makes it the identity. -/
theorem C6_smoothness_band (x : List ℚ) (t : ℚ) :
    (smoothness x t).length = x.length ∧
    (∀ i, i < x.length →
      (smoothness x t).getD i 0 = if |x.getD i 0| < t then 0 else x.getD i 0) ∧
    (t ≤ 0 → smoothness x t = x) := by
  refine ⟨?_, ?_, ?_⟩
  · rw [smoothness_eq_map, List.length_map]
  · intro i hi
    rw [smoothness_eq_map, getD_map_of_lt _ _ _ hi]
    unfold bandZero
    exact if_congr (abs_lt).symm rfl rfl
  · intro ht
    rw [smoothness_eq_map]
    have hid : ∀ v ∈ x, bandZero t v = v := by
      intro v _
      unfold bandZero
      rw [if_neg]
      rintro ⟨h1, h2⟩
      linarith
    rw [List.map_congr_left hid, List.map_id']

/-- Witness for C6: at `x = [1, 1/2, -2]`, `t = 1`, the middle entry (inside
the band) is zeroed according to the elementwise formula. -/
theorem C6_smoothness_band_witness :
    (1 : ℕ) < ([1, 1/2, -2] : List ℚ).length ∧
    (smoothness [1, 1/2, -2] 1).getD 1 0
      = if |([1, 1/2, -2] : List ℚ).getD 1 0| < 1 then 0
        else ([1, 1/2, -2] : List ℚ).getD 1 0 :=
  ⟨by decide, (C6_smoothness_band [1, 1/2, -2] 1).2.1 1 (by decide)⟩

/-- A list whose entries are all 0 or 1 is entrywise nonnegative. -/
theorem mem01_nonneg (l : List ℚ) (h : ∀ v ∈ l, v = 0 ∨ v = 1) : ∀ v ∈ l, 0 ≤ v := by
  intro v hv
  rcases h v hv with h' | h'
  · rw [h']
  · rw [h']; norm_num

/-- In-range `getD` of a 0/1-valued list is 0 or 1. -/
theorem getD_01 (l : List ℚ) (hc : ∀ v ∈ l, v = 0 ∨ v = 1) (i : ℕ)
    (hi : i < l.length) : l.getD i 0 = 0 ∨ l.getD i 0 = 1 := by
  rw [List.getD_eq_getElem _ _ hi]
  exact hc _ (List.getElem_mem hi)

/-- C7: for a nonempty signal the derivative stage (used for the trend signal
at src line 102 and, identically, for the transition signal of the confirmed
indicator at src line 130) keeps the input's length, computes the forward
difference `x[i+1] - x[i]` at every index `i < N-1`, and ends with a zero at
index `N-1`, produced by duplicating the last input value before
differencing. -/
theorem C7_derivative_forward_differences (x : List ℚ) (h : 1 ≤ x.length) :
    (derivative x).length = x.length ∧
    (∀ i, i + 1 < x.length →
      (derivative x).getD i 0 = x.getD (i + 1) 0 - x.getD i 0) ∧
    (derivative x).getD (x.length - 1) 0 = 0 :=
  ⟨derivative_length x, fun i hi => derivative_getD_of_lt x i hi,
    derivative_getD_last x h⟩

/-- Witness for C7: the derivative of `[1, 3, 6, 10]` has length 4, is the
forward difference at indices 0..2, and its last entry is 0. -/
theorem C7_derivative_forward_differences_witness :
    1 ≤ ([1, 3, 6, 10] : List ℚ).length ∧
    ((derivative [1, 3, 6, 10]).length = ([1, 3, 6, 10] : List ℚ).length ∧
      (∀ i, i + 1 < ([1, 3, 6, 10] : List ℚ).length →
        (derivative [1, 3, 6, 10]).getD i 0
          = ([1, 3, 6, 10] : List ℚ).getD (i + 1) 0
            - ([1, 3, 6, 10] : List ℚ).getD i 0) ∧
      (derivative [1, 3, 6, 10]).getD (([1, 3, 6, 10] : List ℚ).length - 1) 0 = 0) :=
  ⟨by decide, C7_derivative_forward_differences [1, 3, 6, 10] (by decide)⟩

/-- C8: for a 0/1-valued candidate indicator convolved with the (nonnegative)
default kernel, the sign-reduced confirmed signal is 1 exactly where the
convolution response is strictly positive and 0 where it is non-positive, so
every confirmed entry is 0 or 1. -/
theorem C8_sign_reduced_binary (cand : List ℚ) (hc : ∀ v ∈ cand, v = 0 ∨ v = 1) :
    (∀ i, i < (usage_period cand).length →
      (usage_period cand).getD i 0
        = if 0 < (npConvolveSame usage_pattern cand).getD i 0 then 1 else 0) ∧
    (∀ v ∈ usage_period cand, v = 0 ∨ v = 1) := by
  have hnn := mem01_nonneg cand hc
  constructor
  · intro i hi
    have hi' : i < (npConvolveSame usage_pattern cand).length := by
      unfold usage_period npSign at hi
      rw [List.length_map] at hi
      exact hi
    unfold usage_period npSign
    rw [getD_map_of_lt _ _ _ hi']
    have h0 : 0 ≤ (npConvolveSame usage_pattern cand).getD i 0 :=
      convSame_getD_nonneg cand hnn i
    rcases eq_or_lt_of_le h0 with h | h
    · rw [← h]; norm_num
    · rw [if_neg (by linarith), if_neg (by linarith), if_pos h]
  · intro v hv
    unfold usage_period npSign at hv
    rw [List.mem_map] at hv
    obtain ⟨c, hcmem, rfl⟩ := hv
    have h0 : 0 ≤ c := convSame_mem_nonneg cand hnn c hcmem
    rcases eq_or_lt_of_le h0 with h | h
    · left; rw [← h]; norm_num
    · right; rw [if_neg (by linarith), if_neg (by linarith)]

/-- Witness for C8: for the candidate indicator `[0, 1, 0]`, the confirmed
entry at index 1 equals the sign-reduced convolution response there. -/
theorem C8_sign_reduced_binary_witness :
    (∀ v ∈ ([0, 1, 0] : List ℚ), v = 0 ∨ v = 1) ∧
    (usage_period [0, 1, 0]).getD 1 0
      = if 0 < (npConvolveSame usage_pattern [0, 1, 0]).getD 1 0 then 1 else 0 := by
  have hmem : ∀ v ∈ ([0, 1, 0] : List ℚ), v = 0 ∨ v = 1 := by
    intro v hv
    fin_cases hv
    · left; rfl
    · right; rfl
    · left; rfl
  have hlen : 1 < (usage_period [0, 1, 0]).length := by
    have h9 : (usage_period [0, 1, 0]).length = 9 := by with_unfolding_all rfl
    omega
  exact ⟨hmem, (C8_sign_reduced_binary [0, 1, 0] hmem).1 1 hlen⟩

/-- C9: raising the smoothing threshold never increases the number of nonzero
entries of the smoothed signal: for `t1 ≤ t2`, the support of
`smoothness x t2` is at most that of `smoothness x t1`. -/
theorem C9_threshold_antitone (x : List ℚ) (t1 t2 : ℚ) (h : t1 ≤ t2) :
    (npNonzero (smoothness x t2)).length ≤ (npNonzero (smoothness x t1)).length := by
  rw [npNonzero_length, npNonzero_length, smoothness_eq_map, smoothness_eq_map,
    List.countP_map, List.countP_map]
  apply List.countP_mono_left
  intro v _ hv
  simp only [Function.comp_apply, decide_eq_true_eq] at hv ⊢
  unfold bandZero at hv ⊢
  by_cases h2 : -t2 < v ∧ v < t2
  · rw [if_pos h2] at hv
    exact absurd rfl hv
  · rw [if_neg h2] at hv
    rw [if_neg ?bandone]
    · exact hv
    case bandone =>
      rintro ⟨ha, hb⟩
      exact h2 ⟨by linarith, by linarith⟩

/-- Witness for C9: on `[1, 2, 3]`, moving the threshold from 1 to 2 does not
increase the nonzero count. -/
theorem C9_threshold_antitone_witness :
    (1 : ℚ) ≤ 2 ∧
    (npNonzero (smoothness [1, 2, 3] 2)).length
      ≤ (npNonzero (smoothness [1, 2, 3] 1)).length :=
  ⟨by norm_num, C9_threshold_antitone [1, 2, 3] 1 2 (by norm_num)⟩

/-- C10: the pattern matcher only dilates: for a 0/1-valued candidate
indicator at least as long as the 9-element kernel `[0,0,0,1,1,1,0,0,0]`
(whose centre tap is 1), every index marked 1 in the candidate is also marked
1 in the sign-reduced confirmed signal, i.e. `candidate[i] ≤ confirmed[i]`
everywhere. -/
theorem C10_matcher_only_dilates (cand : List ℚ) (h9 : 9 ≤ cand.length)
    (hc : ∀ v ∈ cand, v = 0 ∨ v = 1) (i : ℕ) (hi : i < cand.length) :
    cand.getD i 0 ≤ (usage_period cand).getD i 0 := by
  have hnn := mem01_nonneg cand hc
  have hconv := convSame_kernel_getD cand h9 i hi
  have hcenter : cand.getD i 0 ≤ (npConvolveSame usage_pattern cand).getD i 0 := by
    rw [hconv]
    exact le_fullConv_center cand hnn i
  have hclen : i < (npConvolveSame usage_pattern cand).length := by
    rw [convSame_kernel_length _ (by omega)]
    omega
  have hsign : (usage_period cand).getD i 0
      = if (npConvolveSame usage_pattern cand).getD i 0 < 0 then -1
        else if (npConvolveSame usage_pattern cand).getD i 0 = 0 then 0 else 1 := by
    unfold usage_period npSign
    exact getD_map_of_lt _ _ _ hclen
  have hc0 : 0 ≤ (npConvolveSame usage_pattern cand).getD i 0 :=
    convSame_getD_nonneg cand hnn i
  rcases getD_01 cand hc i hi with h0 | h1
  · rw [h0, hsign]
    rcases eq_or_lt_of_le hc0 with h | h
    · rw [← h]
      norm_num
    · rw [if_neg (by linarith), if_neg (by linarith)]
      norm_num
  · rw [h1, hsign]
    have hpos : 0 < (npConvolveSame usage_pattern cand).getD i 0 := by
      rw [h1] at hcenter
      linarith
    rw [if_neg (by linarith), if_neg (by linarith)]

/-- Witness for C10: a one-sample transient spike at the centre of a length-9
candidate indicator survives sign-reduced pattern matching. -/
theorem C10_matcher_only_dilates_witness :
    9 ≤ ([0, 0, 0, 0, 1, 0, 0, 0, 0] : List ℚ).length ∧
    ([0, 0, 0, 0, 1, 0, 0, 0, 0] : List ℚ).getD 4 0
      ≤ (usage_period [0, 0, 0, 0, 1, 0, 0, 0, 0]).getD 4 0 := by
  have hmem : ∀ v ∈ ([0, 0, 0, 0, 1, 0, 0, 0, 0] : List ℚ), v = 0 ∨ v = 1 := by
    intro v hv
    fin_cases hv
    · left; rfl
    · left; rfl
    · left; rfl
    · left; rfl
    · right; rfl
    · left; rfl
    · left; rfl
    · left; rfl
    · left; rfl
  exact ⟨by decide,
    C10_matcher_only_dilates [0, 0, 0, 0, 1, 0, 0, 0, 0] (by decide) hmem 4 (by decide)⟩

end UsageDetection
